import Mathlib

/-!
# tau: dependency merge, state propagation engine, module graph loader, output formatter

A shallow embedding of

* `pkg/config/dependency.go` (`Dependency`, `Dependency.Merge`, `Dependency.Validate`),
* `pkg/terraform/engine.go` (`Engine.ResolveDependencies`) together with
  `pkg/terraform/v012/dependency.go` (`dependencyProcessor.Process`),
* `pkg/api/module.go` (`Module.Hash`, `Module.resolveDependencies`),
* `cmd/output.go` (`flattenValue`, `printEnv`) over the values of the library go-cty,

followed by the properties proved about them.

Conventions of the embedding.

* A Go `error` is an `Option Err`; `none` is the `nil` error.
* A method with a pointer receiver returns the state of the receiver after the call next
  to what the Go method returns.
* A Go `map[string]T` is an association list with at most one pair per key (`GoMap`);
  `m[k] = v` is `GoMap.set`, `m[k]` with the comma-ok form is `GoMap.get`.
* Calls that leave the program (file system, hooks, the terraform executable, the state
  output resolver) are answered by a `World`: each answer may depend on everything that
  happened before, which is handed over as the list of earlier events.
* A function that can panic returns an `Option`; `none` is the panic.
-/

namespace Tau

/-- An error value; `Option Err` is Go's `error`. -/
abbrev Err := String

/-- Raw bytes (`[]byte`). -/
abbrev Bytes := List Nat

/-! ## Go maps -/

/-- A Go `map[string]V`. -/
abbrev GoMap (V : Type) := List (String × V)

/-- The lookup `m[k]` in its comma-ok form. -/
def GoMap.get {V : Type} : GoMap V → String → Option V
  | [], _ => none
  | (k', v) :: rest, k => if k' = k then some v else GoMap.get rest k

/-- The assignment `m[k] = v`: replaces the value of an existing key, adds a new key. -/
def GoMap.set {V : Type} : GoMap V → String → V → GoMap V
  | [], k, v => [(k, v)]
  | (k', v') :: rest, k, v =>
    if k' = k then (k, v) :: rest else (k', v') :: GoMap.set rest k v

/-- The keys of a map. -/
def GoMap.keys {V : Type} (m : GoMap V) : List String := m.map Prod.fst

/-! ## pkg/config/dependency.go -/

/-- The struct `Dependency`; `B` is the struct `Backend` (declared in another file of the
package), so that `Option B` is the pointer `*Backend`. -/
structure Dependency (B : Type) where
  Name : String
  Source : String
  Backend : Option B
  deriving DecidableEq

/-- The package variable `dependencySourceMustBeSet`. -/
def dependencySourceMustBeSet : Err := "dependency source must be set"

/-- The method `(d *Dependency) Merge(src *Dependency) error`.

`backendMerge` is `(*Backend).Merge` of the same package, whose body is in another file: it
is given the receiver `d.Backend` and the argument `src.Backend` and answers with the state
of the receiver after the call and the error it returns. -/
def Dependency.Merge {B : Type} (backendMerge : Option B → Option B → Option B × Option Err)
    (d : Dependency B) (src : Option (Dependency B)) : Dependency B × Option Err :=
  match src with
  | none => (d, none)
  | some src =>
    -- do not merge dependencies that do not match
    if d.Name ≠ src.Name then (d, none)
    else
      let d := if src.Source ≠ "" then { d with Source := src.Source } else d
      if d.Backend.isNone && src.Backend.isSome then
        ({ d with Backend := src.Backend }, none)
      else
        match backendMerge d.Backend src.Backend with
        | (b, some err) => ({ d with Backend := b }, some err)
        | (b, none) => ({ d with Backend := b }, none)

/-- The method `(d *Dependency) Validate() (bool, error)`. -/
def Dependency.Validate {B : Type} (d : Dependency B) : Bool × Option Err :=
  if d.Source = "" then (false, some dependencySourceMustBeSet)
  else (true, none)

/-! ## The world outside the program -/

/-- One call that leaves the program, with the answer it got. `V` is `cty.Value`. -/
inductive Event (V : Type)
  /-- The call `paths.EnsureDirectoryExists(path)`; the engine looks at no result of it. -/
  | ensureDirectoryExists (path : String)
  /-- The call `ioutil.WriteFile(path, content, os.ModePerm)`. -/
  | writeFile (path : String) (content : Bytes) (err : Option Err)
  /-- The call `hooks.Run(source, event, command)`, the source given by its name. -/
  | hooksRun (source event command : String) (err : Option Err)
  /-- The call `executor.Execute(options, args...)` with the working directory and the
  environment of the options, and what the process wrote to its standard output. -/
  | execute (workingDirectory : String) (env : GoMap String) (args : List String)
      (stdout : String) (err : Option Err)
  /-- The call `resolver.ResolveStateOutput(output)`. -/
  | resolveStateOutput (output : String) (vals : GoMap V) (err : Option Err)
  deriving DecidableEq

/-- The error an event ended with. -/
def Event.err {V : Type} : Event V → Option Err
  | .ensureDirectoryExists _ => none
  | .writeFile _ _ err => err
  | .hooksRun _ _ _ err => err
  | .execute _ _ _ _ err => err
  | .resolveStateOutput _ _ err => err

/-- The struct `dependencyProcessor`, reduced to what the engine and `Process` read of it:
`Name()` (which is `d.Source.Name`), `d.Source.Env` and `Content()` (which is
`d.File.Bytes()`). -/
structure dependencyProcessor where
  Name : String
  Env : GoMap String
  Content : Bytes

/-- The collaborators of the engine. `S` is `config.Source`, `V` is `cty.Value` and `T` is
`ctytree.Tree`. Every answer of the outside world may depend on the events so far. -/
structure World (S V T : Type) where
  /-- The call `e.Generator.GenerateDependencies(source)`: the work units, `create`, `err`. -/
  GenerateDependencies : S → List dependencyProcessor × Bool × Option Err
  /-- The function `filepath.Join` of two elements. -/
  Join : String → String → String
  /-- The answer of `ioutil.WriteFile(path, content, os.ModePerm)`. -/
  WriteFile : List (Event V) → String → Bytes → Option Err
  /-- The answer of `hooks.Run(source, event, command)`. -/
  hooksRun : List (Event V) → String → String → String → Option Err
  /-- The answer of `executor.Execute`: the standard output of the process and the error. -/
  Execute : List (Event V) → String → GoMap String → List String → String × Option Err
  /-- The answer of `resolver.ResolveStateOutput(output)`. -/
  ResolveStateOutput : List (Event V) → String → GoMap V × Option Err
  /-- The function `ctytree.CreateTree`; it returns a tree and nothing else. -/
  CreateTree : GoMap V → T
  /-- The method `(*Tree).ToCtyMap`; the `Option` is a map value that may be `nil`. -/
  ToCtyMap : T → Option (GoMap V)

/-! ## pkg/terraform/v012/dependency.go -/

/-- The method `(d *dependencyProcessor) Process(dest string) (map[string]cty.Value, error)`,
started after the events `tr`. It returns the events after the call and the Go result. -/
def dependencyProcessor.Process {S V T : Type} (w : World S V T) (d : dependencyProcessor)
    (tr : List (Event V)) (dest : String) : List (Event V) × GoMap V × Option Err :=
  let hookErr := w.hooksRun tr d.Name "prepare" "init"
  let tr := tr ++ [Event.hooksRun d.Name "prepare" "init" hookErr]
  match hookErr with
  | some err => (tr, [], some err)
  | none =>
    let init := w.Execute tr dest d.Env ["init"]
    let tr := tr ++ [Event.execute dest d.Env ["init"] init.1 init.2]
    match init.2 with
    | some err => (tr, [], some err)
    | none =>
      let applied := w.Execute tr dest d.Env ["apply"]
      let tr := tr ++ [Event.execute dest d.Env ["apply"] applied.1 applied.2]
      match applied.2 with
      | some err => (tr, [], some err)
      | none =>
        let output := w.Execute tr dest d.Env ["output", "-json"]
        let tr := tr ++ [Event.execute dest d.Env ["output", "-json"] output.1 output.2]
        match output.2 with
        | some err => (tr, [], some err)
        | none =>
          let resolved := w.ResolveStateOutput tr output.1
          (tr ++ [Event.resolveStateOutput output.1 resolved.1 resolved.2], resolved)

/-! ## pkg/terraform/engine.go -/

/-- The statement `for key, value := range vals { values[key] = value }`. -/
def mergeValues {V : Type} (values vals : GoMap V) : GoMap V :=
  vals.foldl (fun acc kv => acc.set kv.1 kv.2) values

/-- The loop `for _, proc := range processors` of `Engine.ResolveDependencies`, started
after the events `tr` with the map `values`. It returns the events after the loop and
either the map `values` the loop ends with or the error the loop returns with. -/
def Engine.processAll {S V T : Type} (w : World S V T) (dest : String) :
    List dependencyProcessor → List (Event V) → GoMap V → List (Event V) × GoMap V × Option Err
  | [], tr, values => (tr, values, none)
  | proc :: rest, tr, values =>
    let procDest := w.Join dest proc.Name
    let tr := tr ++ [Event.ensureDirectoryExists procDest]
    let file := w.Join procDest "main.tf"
    let writeErr := w.WriteFile tr file proc.Content
    let tr := tr ++ [Event.writeFile file proc.Content writeErr]
    match writeErr with
    | some err => (tr, values, some err)
    | none =>
      match dependencyProcessor.Process w proc tr procDest with
      | (tr, _, some err) => (tr, values, some err)
      | (tr, vals, none) => Engine.processAll w dest rest tr (mergeValues values vals)

/-- The method `(e *Engine) ResolveDependencies(source, dest) (map[string]cty.Value, error)`.
It returns the events of the call and the Go result, `none` being the `nil` map. -/
def Engine.ResolveDependencies {S V T : Type} (w : World S V T) (source : S) (dest : String) :
    List (Event V) × Option (GoMap V) × Option Err :=
  match (w.GenerateDependencies source).2.2 with
  | some err => ([], none, some err)
  | none =>
    if !(w.GenerateDependencies source).2.1 then ([], none, none)
    else
      match Engine.processAll w dest (w.GenerateDependencies source).1 [] [] with
      | (tr, _, some err) => (tr, none, some err)
      | (tr, values, none) => (tr, w.ToCtyMap (w.CreateTree values), none)

/-- The calls of the executor among the events, in order: working directory and arguments. -/
def executorCalls {V : Type} (tr : List (Event V)) : List (String × List String) :=
  tr.filterMap (fun e =>
    match e with
    | .execute dir _ args _ _ => some (dir, args)
    | _ => none)

/-- The three stages of the lifecycle of one work unit under `dest`. -/
def lifecycle {S V T : Type} (w : World S V T) (dest : String) (p : dependencyProcessor) :
    List (String × List String) :=
  [(w.Join dest p.Name, ["init"]), (w.Join dest p.Name, ["apply"]),
   (w.Join dest p.Name, ["output", "-json"])]

/-- The maps the work units were resolved to, in order. -/
def unitOutputs {V : Type} (tr : List (Event V)) : List (GoMap V) :=
  tr.filterMap (fun e =>
    match e with
    | .resolveStateOutput _ vals none => some vals
    | _ => none)

/-! ## pkg/api/module.go -/

/-- The type `Level` with its constants `Root` and `Dependency`. -/
inductive Level
  | Root
  | Dependency
  deriving DecidableEq

/-- The struct `config.Config`, reduced to the field `Dependencies`. -/
structure Config (B : Type) where
  Dependencies : List (Dependency B)
  deriving DecidableEq

/-- A `*Module`: the address the pointer holds and the fields of the struct `Module` that
are set when it is created (`S` is the embedded struct `Source`). The field `deps` is the
state that `resolveDependencies` writes; it is kept apart, as a map of such pointers. -/
structure Module (S B : Type) where
  addr : Nat
  Source : S
  content : Bytes
  level : Level
  config : Config B
  deriving DecidableEq

/-- What `Module.resolveDependencies` calls outside of itself. -/
structure Loader (S B : Type) where
  /-- The hex encoding of the MD5 sum of some bytes (`crypto/md5`, `encoding/hex`). -/
  md5hex : Bytes → String
  /-- The function `getSource(src, pwd)`. -/
  getSource : String → String → S
  /-- The field `pwd` of a `Source`. -/
  pwd : S → String
  /-- The answer of `source.loadModules(level)`; the number says how many dependencies of
  the loop were loaded before, so that each call may be answered on its own. -/
  loadModules : Nat → S → Level → List (Module S B) × Option Err

/-- The method `(m *Module) Hash() string`. -/
def Module.Hash {S B : Type} (md5hex : Bytes → String) (m : Module S B) : String :=
  md5hex m.content

/-- The loop `for _, module := range modules` of `Module.resolveDependencies` for the
dependency called `name`, on the maps `m.deps` and `loaded`. -/
def Module.recordModules {S B : Type} (md5hex : Bytes → String) (name : String) :
    List (Module S B) → GoMap (Module S B) → GoMap (Module S B) →
    GoMap (Module S B) × GoMap (Module S B)
  | [], deps, loaded => (deps, loaded)
  | module :: rest, deps, loaded =>
    let hash := Module.Hash md5hex module
    let loaded := if (loaded.get hash).isSome then loaded else loaded.set hash module
    -- `loaded[hash]` is present here, the default is never taken
    let deps := deps.set name ((loaded.get hash).getD module)
    Module.recordModules md5hex name rest deps loaded

/-- The loop `for _, dep := range m.config.Dependencies` of `Module.resolveDependencies`,
at the dependency number `i`. -/
def Module.resolveLoop {S B : Type} (L : Loader S B) (m : Module S B) :
    Nat → List (Dependency B) → GoMap (Module S B) → GoMap (Module S B) →
    GoMap (Module S B) × GoMap (Module S B) × Option Err
  | _, [], deps, loaded => (deps, loaded, none)
  | i, dep :: rest, deps, loaded =>
    let source := L.getSource dep.Source (L.pwd m.Source)
    match L.loadModules i source Level.Dependency with
    | (_, some err) => (deps, loaded, some err)
    | (modules, none) =>
      let recorded := Module.recordModules L.md5hex dep.Name modules deps loaded
      Module.resolveLoop L m (i + 1) rest recorded.1 recorded.2

/-- The method `(m *Module) resolveDependencies(loaded map[string]*Module) error`. It
returns the map `m.deps` and the shared map `loaded` after the call, and the error. -/
def Module.resolveDependencies {S B : Type} (L : Loader S B) (m : Module S B)
    (loaded : GoMap (Module S B)) : GoMap (Module S B) × GoMap (Module S B) × Option Err :=
  Module.resolveLoop L m 0 m.config.Dependencies [] loaded

/-- The modules the loader answers with for the dependency number `i` of `m`. -/
def Module.loadedFor {S B : Type} (L : Loader S B) (m : Module S B) (i : Nat)
    (dep : Dependency B) : List (Module S B) :=
  (L.loadModules i (L.getSource dep.Source (L.pwd m.Source)) Level.Dependency).1

/-- All modules the loader answers with for the dependencies `deps` of `m`, the first of
them being the dependency number `i`, in the order of the loop. -/
def Module.allLoaded {S B : Type} (L : Loader S B) (m : Module S B) :
    Nat → List (Dependency B) → List (Module S B)
  | _, [] => []
  | i, dep :: rest => Module.loadedFor L m i dep ++ Module.allLoaded L m (i + 1) rest

/-- The dependency names declared in the configuration of `m`. -/
def Module.declaredNames {S B : Type} (m : Module S B) : List String :=
  m.config.Dependencies.map (fun d => d.Name)

/-- A stand-in for the digest in examples: it tells the empty content, the content `[1]`
and every other content apart. -/
def exampleDigest (b : Bytes) : String :=
  if b = [] then "d0" else if b = [1] then "d1" else "d2"

/-- A loader for examples: sources are the joined strings and the dependency number `i`
is answered with `answers i`. -/
def exampleLoader (answers : Nat → List (Module String Unit)) : Loader String Unit where
  md5hex := exampleDigest
  getSource := fun src pwd => pwd ++ "/" ++ src
  pwd := fun s => s
  loadModules := fun i _ _ => (answers i, none)

/-- Two modules with the same content `[1]` at different locations, and a third one with
another content. -/
def moduleX : Module String Unit := ⟨1, "/p/x", [1], Level.Dependency, ⟨[]⟩⟩

/-- The module with the content of `moduleX` at another location. -/
def moduleY : Module String Unit := ⟨2, "/q/y", [1], Level.Dependency, ⟨[]⟩⟩

/-- A first dependent, with the dependency `a`. -/
def dependentOne : Module String Unit := ⟨3, "/p", [2], Level.Root, ⟨[⟨"a", "x", none⟩]⟩⟩

/-- A second dependent, with the dependency `b`. -/
def dependentTwo : Module String Unit := ⟨4, "/q", [3], Level.Root, ⟨[⟨"b", "y", none⟩]⟩⟩

/-- A module with the content `[9]`, which is not the content of `moduleX`. -/
def moduleZ : Module String Unit := ⟨5, "/p/z", [9], Level.Dependency, ⟨[]⟩⟩

/-- A dependent that declares the name `a` twice, with the sources `x` and `z`. -/
def dependentTwice : Module String Unit :=
  ⟨6, "/r", [4], Level.Root, ⟨[⟨"a", "x", none⟩, ⟨"a", "z", none⟩]⟩⟩

/-- The answers of a loader for `dependentTwice`: `moduleX` for the first dependency and
`moduleZ` for every later one. -/
def answersXThenZ (i : Nat) : List (Module String Unit) :=
  if i = 0 then [moduleX] else [moduleZ]

/-! ## A world for examples -/

/-- A world in which the generator returns the work units `procs` and asks to create them,
paths are joined with a slash, writing files and hooks succeed, the executor fails exactly at
the call `failing` (working directory and arguments) and prints its working directory, and
the resolver reads the map `outputs` of what was printed. The tree is the flat map itself. -/
def exampleWorld (procs : List dependencyProcessor) (failing : Option (String × List String))
    (outputs : String → GoMap Nat) : World Unit Nat (GoMap Nat) where
  GenerateDependencies := fun _ => (procs, true, none)
  Join := fun a b => a ++ "/" ++ b
  WriteFile := fun _ _ _ => none
  hooksRun := fun _ _ _ _ => none
  Execute := fun _ dir _ args =>
    (dir, if failing = some (dir, args) then some "exit status 1" else none)
  ResolveStateOutput := fun _ out => (outputs out, none)
  CreateTree := id
  ToCtyMap := some

/-- Three work units `A`, `B`, `C` with empty environment and empty content. -/
def unitsABC : List dependencyProcessor := [⟨"A", [], []⟩, ⟨"B", [], []⟩, ⟨"C", [], []⟩]

/-- Two work units `net` and `db`. -/
def unitsNetDb : List dependencyProcessor := [⟨"net", [], []⟩, ⟨"db", [], []⟩]

/-- Both units have the output `id`: 1 for `net` and 2 for `db`. -/
def idOutputs (out : String) : GoMap Nat :=
  if out = "d/net" then [("id", 1)] else [("id", 2)]

/-- The units return keys that carry their names already. -/
def namedOutputs (out : String) : GoMap Nat :=
  if out = "d/net" then [("net.id", 1)] else [("db.id", 2)]

/-- One unit with the outputs `a.b` and `a`. -/
def conflictOutputs (_ : String) : GoMap Nat := [("a.b", 1), ("a", 2)]

/-- The value assigned last to the key `k` when the maps `outs` are merged in order. -/
def lastAssigned {V : Type} (outs : List (GoMap V)) (k : String) : Option V :=
  GoMap.get outs.flatten.reverse k

/-- A world in which the generator reports that there is nothing to create: no work unit,
`create` false, no error. Everything else is as in `exampleWorld`. -/
def nothingToCreateWorld : World Unit Nat (GoMap Nat) where
  GenerateDependencies := fun _ => ([], false, none)
  Join := fun a b => a ++ "/" ++ b
  WriteFile := fun _ _ _ => none
  hooksRun := fun _ _ _ _ => none
  Execute := fun _ dir _ _ => (dir, none)
  ResolveStateOutput := fun _ _ => ([], none)
  CreateTree := id
  ToCtyMap := some

/-! ## The values of the library go-cty -/

/-- A known, non-null `cty.Value` of the library `github.com/zclconf/go-cty`, by the kind of
its type: the primitive types string, number and bool, the collection types list and map,
and the structural types tuple and object. A number is given by an integer here; no
function of this file reads it. Sets, null and unknown values are left out. -/
inductive Value
  | string (s : String)
  | number (n : Int)
  | bool (b : Bool)
  | list (elems : List Value)
  | tuple (elems : List Value)
  | map (elems : List (String × Value))
  | object (attrs : List (String × Value))

/-- The method `Value.CanIterateElements` of the library: true for the values of a list,
map, tuple or object type, false for the values of a primitive type. -/
def Value.CanIterateElements : Value → Bool
  | .string _ => false
  | .number _ => false
  | .bool _ => false
  | .list _ => true
  | .tuple _ => true
  | .map _ => true
  | .object _ => true

/-- The method `Value.AsString` of the library: the native string of a value of the type
string; it panics (`none`) on every other value. -/
def Value.AsString : Value → Option String
  | .string s => some s
  | _ => none

/-- The method `Value.AsValueMap` of the library: `nil` for a value of length zero, and
otherwise the elements under the string of their key, `ret[k.AsString()] = v`. The key of
an attribute or of a map element is a string; the key of a list or tuple element is its
index, a number, on which `AsString` panics; a value of a primitive type has no length and
the call panics (`none`). -/
def Value.AsValueMap : Value → Option (GoMap Value)
  | .string _ => none
  | .number _ => none
  | .bool _ => none
  | .list elems => if elems.isEmpty then some [] else none
  | .tuple elems => if elems.isEmpty then some [] else none
  | .map elems => some elems
  | .object attrs => some attrs

/-! ## cmd/output.go -/

/-- The function `strings.ToUpper`, which maps every rune of the string; `up` is the
mapping of one rune, `unicode.ToUpper`. -/
def ToUpper (up : Char → Char) (s : String) : String := ⟨s.data.map up⟩

/-- The inner loop of `flattenValue`,
`for fk, fv := range flattenValue(v, k)` with the body
`key := strings.ToUpper(fmt.Sprintf("%s_%s", prefix, fk)); values[key] = fv`,
over the map `inner` that the recursive call returned. -/
def flattenInner (up : Char → Char) (pre : String) (inner values : GoMap String) :
    GoMap String :=
  inner.foldl (fun acc kv => acc.set (ToUpper up (pre ++ "_" ++ kv.1)) kv.2) values

mutual
/-- The function `flattenValue(value cty.Value, prefix string) map[string]string`; `none` is
a panic. The cases are those of `value.AsValueMap()` (see `Value.AsValueMap` and
`flattenValue_eq`): the loop runs over the attributes of an object and the elements of a
map, over nothing for an empty list or tuple, and the call panics otherwise. -/
def flattenValue (up : Char → Char) : Value → String → Option (GoMap String)
  | .object attrs, pre => flattenRange up pre attrs []
  | .map elems, pre => flattenRange up pre elems []
  | .list elems, _ => if elems.isEmpty then some [] else none
  | .tuple elems, _ => if elems.isEmpty then some [] else none
  | .string _, _ => none
  | .number _, _ => none
  | .bool _, _ => none
/-- The loop `for k, v := range value.AsValueMap()` of `flattenValue` over the remaining
pairs, with the map `values` built so far. -/
def flattenRange (up : Char → Char) (pre : String) :
    List (String × Value) → GoMap String → Option (GoMap String)
  | [], values => some values
  | (k, v) :: rest, values =>
    if v.CanIterateElements then
      match flattenValue up v k with
      | none => none
      | some inner => flattenRange up pre rest (flattenInner up pre inner values)
    else
      match v.AsString with
      | none => none
      | some s => flattenRange up pre rest (values.set (ToUpper up (pre ++ "_" ++ k)) s)
end

/-- The function `printEnv(values map[string]cty.Value) error`: the lines it hands to
`ui.Output`, one `KEY="value"` for each pair of the flattened object; `none` is a panic. -/
def printEnv (up : Char → Char) (values : GoMap Value) : Option (List String) :=
  (flattenValue up (Value.object values) "TAU").map
    (fun m => m.map (fun kv => kv.1 ++ "=\"" ++ kv.2 ++ "\""))

/-- The value is of the type string. -/
def Value.isString : Value → Bool
  | .string _ => true
  | _ => false

mutual
/-- The value is a tree of nested objects whose leaves are strings. -/
def Value.isObjectTree : Value → Bool
  | .object attrs => attrsAreTrees attrs
  | _ => false
/-- Every attribute is a string or a tree of nested objects whose leaves are strings. -/
def attrsAreTrees : List (String × Value) → Bool
  | [] => true
  | (_, v) :: rest => (v.isString || v.isObjectTree) && attrsAreTrees rest
end

mutual
/-- The string leaves of a tree of nested objects, each with its path of attribute names. -/
def Value.leaves : Value → List (List String × String)
  | .object attrs => leavesOfAttrs attrs
  | _ => []
/-- The string leaves at and below the attributes, each with its path. -/
def leavesOfAttrs : List (String × Value) → List (List String × String)
  | [] => []
  | (k, v) :: rest =>
    (match v.AsString with
      | some s => [([k], s)]
      | none => v.leaves.map (fun l => (k :: l.1, l.2))) ++ leavesOfAttrs rest
end

/-- The key of the leaf at the path `k1, ..., kn` under the root token:
`upper(root + "_" + k1 + "_" + ... + "_" + kn)`. -/
def pathKey (up : Char → Char) (root : String) (path : List String) : String :=
  ToUpper up ("_".intercalate (root :: path))

/-- The tree `db: (host: "x", port: 5432)` with the number 5432. -/
def numberPortTree : Value :=
  .object [("db", .object [("host", .string "x"), ("port", .number 5432)])]

/-- The tree `db: (host: "x", port: "5432")` with the string "5432". -/
def stringPortTree : Value :=
  .object [("db", .object [("host", .string "x"), ("port", .string "5432")])]

/-- A tree of depth three with an empty nested object:
`a: (b: (c: "v"), e: ()), f: "w"`. -/
def deepTree : Value :=
  .object [("a", .object [("b", .object [("c", .string "v")]), ("e", .object [])]),
    ("f", .string "w")]

/-! ## Go maps: lookup after assignment -/

theorem GoMap.get_set {V : Type} (m : GoMap V) (k k' : String) (v : V) :
    (m.set k v).get k' = if k = k' then some v else m.get k' := by
  induction m with
  | nil => simp [GoMap.set, GoMap.get]
  | cons p rest ih =>
    obtain ⟨a, b⟩ := p
    by_cases hak : a = k
    · subst hak
      by_cases hk : a = k' <;> simp [GoMap.set, GoMap.get, hk]
    · by_cases hk : a = k'
      · subst hk
        simp [GoMap.set, GoMap.get, hak, Ne.symm hak]
      · simp [GoMap.set, GoMap.get, hak, hk, ih]

theorem GoMap.mem_keys_iff {V : Type} (m : GoMap V) (k : String) :
    k ∈ m.keys ↔ (m.get k).isSome = true := by
  induction m with
  | nil => simp [GoMap.keys, GoMap.get]
  | cons p rest ih =>
    obtain ⟨a, b⟩ := p
    by_cases hak : a = k
    · simp [GoMap.keys, GoMap.get, hak]
    · have ih' : k ∈ List.map Prod.fst rest ↔ (GoMap.get rest k).isSome = true := ih
      simp [GoMap.keys, GoMap.get, hak, Ne.symm hak, ih']

theorem GoMap.get_append {V : Type} (m m' : GoMap V) (k : String) :
    GoMap.get (m ++ m') k = (GoMap.get m k).orElse (fun _ => GoMap.get m' k) := by
  induction m with
  | nil => simp [GoMap.get]
  | cons p rest ih =>
    obtain ⟨a, b⟩ := p
    by_cases hak : a = k
    · simp [GoMap.get, hak]
    · simpa [GoMap.get, hak] using ih

/-- After `for key, value := range vals { values[key] = value }` a key holds the value
assigned to it last, and its old value when `vals` does not have it. -/
theorem mergeValues_get {V : Type} (vals values : GoMap V) (k : String) :
    (mergeValues values vals).get k =
      (GoMap.get vals.reverse k).orElse (fun _ => values.get k) := by
  induction vals generalizing values with
  | nil => simp [mergeValues, GoMap.get]
  | cons p rest ih =>
    have hstep : mergeValues values (p :: rest) = mergeValues (values.set p.1 p.2) rest := rfl
    rw [hstep, ih, List.reverse_cons, GoMap.get_append, GoMap.get_set]
    cases hrest : GoMap.get rest.reverse k with
    | some v => simp
    | none =>
      by_cases hk : p.1 = k <;> simp [GoMap.get, hk]

/-! ## The events of `Process` and of the loop over the work units -/

/-- No event of the list ended with an error. -/
def Clean {V : Type} (tr : List (Event V)) : Prop := ∀ e ∈ tr, e.err = none

/-- The events of a call that returned `err`: without an error none of them failed, with
an error the last event failed with exactly this error and none before it failed. -/
def Shape {V : Type} (ev : List (Event V)) (err : Option Err) : Prop :=
  match err with
  | none => Clean ev
  | some x => ∃ ev0 last, ev = ev0 ++ [last] ∧ Clean ev0 ∧ last.err = some x

theorem Clean.append {V : Type} {a b : List (Event V)} (ha : Clean a) (hb : Clean b) :
    Clean (a ++ b) := by
  intro e he
  rcases List.mem_append.mp he with h | h
  · exact ha e h
  · exact hb e h

theorem Shape.prepend {V : Type} {a ev : List (Event V)} {err : Option Err}
    (ha : Clean a) (h : Shape ev err) : Shape (a ++ ev) err := by
  cases err with
  | none => exact Clean.append ha h
  | some x =>
    obtain ⟨ev0, last, h1, h2, h3⟩ := h
    exact ⟨a ++ ev0, last, by simp [h1], Clean.append ha h2, h3⟩

theorem Shape.nil {V : Type} : Shape ([] : List (Event V)) none := by
  intro e he
  cases he

theorem Shape.single {V : Type} {e : Event V} {x : Err} (h : e.err = some x) :
    Shape [e] (some x) :=
  ⟨[], e, rfl, (by intro e he; cases he), h⟩

theorem Shape.cons {V : Type} {e : Event V} {ev : List (Event V)} {err : Option Err}
    (he : e.err = none) (h : Shape ev err) : Shape (e :: ev) err := by
  have hc : Clean [e] := by
    intro e' he'
    rw [List.mem_singleton.mp he']
    exact he
  exact Shape.prepend hc h

/-- What `Process` does: it adds events to those before it; they have the shape of its
error; and when it returns no error they are one hook, the three stages in `dest` and the
resolver call whose map is returned. -/
theorem Process_events {S V T : Type} (w : World S V T) (d : dependencyProcessor)
    (tr : List (Event V)) (dest : String) :
    ∃ ev, (dependencyProcessor.Process w d tr dest).1 = tr ++ ev ∧
      Shape ev (dependencyProcessor.Process w d tr dest).2.2 ∧
      ((dependencyProcessor.Process w d tr dest).2.2 = none →
        executorCalls ev = [(dest, ["init"]), (dest, ["apply"]), (dest, ["output", "-json"])] ∧
        unitOutputs ev = [(dependencyProcessor.Process w d tr dest).2.1]) := by
  unfold dependencyProcessor.Process
  simp only []
  split
  · rename_i err h1
    simp only [List.append_assoc, List.singleton_append, List.cons_append, List.nil_append] at *
    refine ⟨_, rfl, ?_, by simp⟩
    exact Shape.single (by simp [Event.err, h1])
  · rename_i h1
    split
    · rename_i err h2
      simp only [List.append_assoc, List.singleton_append, List.cons_append, List.nil_append] at *
      refine ⟨_, rfl, ?_, by simp⟩
      exact Shape.cons (by simp [Event.err, h1]) (Shape.single (by simp [Event.err, h2]))
    · rename_i h2
      split
      · rename_i err h3
        simp only [List.append_assoc, List.singleton_append, List.cons_append, List.nil_append] at *
        refine ⟨_, rfl, ?_, by simp⟩
        exact Shape.cons (by simp [Event.err, h1]) (Shape.cons (by simp [Event.err, h2])
          (Shape.single (by simp [Event.err, h3])))
      · rename_i h3
        split
        · rename_i err h4
          simp only [List.append_assoc, List.singleton_append, List.cons_append, List.nil_append] at *
          refine ⟨_, rfl, ?_, by simp⟩
          exact Shape.cons (by simp [Event.err, h1]) (Shape.cons (by simp [Event.err, h2])
            (Shape.cons (by simp [Event.err, h3]) (Shape.single (by simp [Event.err, h4]))))
        · rename_i h4
          simp only [List.append_assoc, List.singleton_append, List.cons_append, List.nil_append] at *
          refine ⟨_, rfl, ?_, ?_⟩
          · cases h5 : (w.ResolveStateOutput _ _).2 with
            | none =>
              exact Shape.cons (by simp [Event.err, h1]) (Shape.cons (by simp [Event.err, h2])
                (Shape.cons (by simp [Event.err, h3]) (Shape.cons (by simp [Event.err, h4])
                  (Shape.cons (by simp [Event.err, h5]) Shape.nil))))
            | some x =>
              exact Shape.cons (by simp [Event.err, h1]) (Shape.cons (by simp [Event.err, h2])
                (Shape.cons (by simp [Event.err, h3]) (Shape.cons (by simp [Event.err, h4])
                  (Shape.single (by simp [Event.err, h5])))))
          · intro h5
            simp [executorCalls, unitOutputs, h5]

/-- What the loop over the work units does: it adds events to those before it; they have
the shape of its error; and when it ends without an error the executor was called for the
lifecycle of each unit in order and `values` received the map of each unit in order. -/
theorem processAll_events {S V T : Type} (w : World S V T) (dest : String)
    (procs : List dependencyProcessor) (tr : List (Event V)) (values : GoMap V) :
    ∃ ev, (Engine.processAll w dest procs tr values).1 = tr ++ ev ∧
      Shape ev (Engine.processAll w dest procs tr values).2.2 ∧
      ((Engine.processAll w dest procs tr values).2.2 = none →
        executorCalls ev = procs.flatMap (lifecycle w dest) ∧
        (Engine.processAll w dest procs tr values).2.1 =
          (unitOutputs ev).foldl mergeValues values) := by
  induction procs generalizing tr values with
  | nil =>
    exact ⟨[], by simp [Engine.processAll], Shape.nil,
      fun _ => by simp [Engine.processAll, executorCalls, unitOutputs]⟩
  | cons proc rest ih =>
    unfold Engine.processAll
    simp only []
    split
    · rename_i err h1
      simp only [List.append_assoc, List.singleton_append, List.cons_append, List.nil_append] at *
      refine ⟨_, rfl, ?_, by simp⟩
      exact Shape.cons rfl (Shape.single (by simp [Event.err, h1]))
    · rename_i h1
      obtain ⟨pev, hp1, hp2, hp3⟩ := Process_events w proc
        (tr ++ [Event.ensureDirectoryExists (w.Join dest proc.Name)] ++
          [Event.writeFile (w.Join (w.Join dest proc.Name) "main.tf") proc.Content
            (w.WriteFile (tr ++ [Event.ensureDirectoryExists (w.Join dest proc.Name)])
              (w.Join (w.Join dest proc.Name) "main.tf") proc.Content)])
        (w.Join dest proc.Name)
      obtain ⟨pre2, hpre2, hclean⟩ : ∃ pre2 : List (Event V),
          pre2 = [Event.ensureDirectoryExists (w.Join dest proc.Name),
            Event.writeFile (w.Join (w.Join dest proc.Name) "main.tf") proc.Content
              (w.WriteFile (tr ++ [Event.ensureDirectoryExists (w.Join dest proc.Name)])
                (w.Join (w.Join dest proc.Name) "main.tf") proc.Content)] ∧ Clean pre2 := by
        refine ⟨_, rfl, ?_⟩
        intro e he
        simp only [List.mem_cons, List.mem_singleton, List.not_mem_nil, or_false] at he
        rcases he with rfl | rfl
        · rfl
        · simpa [Event.err] using h1
      split
      · rename_i tr' vals err hproc
        rw [hproc] at hp1 hp2
        simp only [] at hp1 hp2
        refine ⟨pre2 ++ pev, by rw [hp1, hpre2]; simp, ?_, by simp⟩
        exact Shape.prepend hclean hp2
      · rename_i tr' vals hproc
        rw [hproc] at hp1 hp2 hp3
        simp only [] at hp1 hp2 hp3
        obtain ⟨rev, hr1, hr2, hr3⟩ := ih tr' (mergeValues values vals)
        refine ⟨pre2 ++ (pev ++ rev), ?_, ?_, ?_⟩
        · rw [hr1, hp1, hpre2]
          simp
        · rw [← List.append_assoc]
          exact Shape.prepend (Clean.append hclean hp2) hr2
        · intro hnone
          obtain ⟨hc, hv⟩ := hr3 hnone
          obtain ⟨hpc, hpv⟩ := hp3 trivial
          refine ⟨?_, ?_⟩
          · simp only [executorCalls, List.filterMap_append] at hc hpc ⊢
            rw [hc, hpc, hpre2]
            simp [lifecycle]
          · rw [hv]
            simp only [unitOutputs, List.filterMap_append] at hpv ⊢
            rw [hpv, hpre2]
            simp

/-- A failed event in the middle of events of the shape of an error is the last event. -/
theorem Shape.failed_is_last {V : Type} {ev pre post : List (Event V)} {e : Event V}
    {err : Option Err} {x : Err} (h : Shape ev err) (hev : ev = pre ++ e :: post)
    (hx : e.err = some x) : post = [] ∧ err = some x := by
  cases err with
  | none =>
    have hmem : e ∈ ev := by rw [hev]; simp
    have := h e hmem
    rw [hx] at this
    cases this
  | some y =>
    obtain ⟨ev0, last, h1, h2, h3⟩ := h
    rcases List.eq_nil_or_concat post with hp | ⟨post', l, hp⟩
    · subst hp
      rw [hev] at h1
      obtain ⟨_, h5⟩ := List.append_inj' h1 rfl
      have h6 : e = last := by simpa using h5
      rw [h6, h3] at hx
      exact ⟨rfl, hx⟩
    · rw [hev, hp, List.concat_eq_append, ← List.cons_append, ← List.append_assoc] at h1
      obtain ⟨h4, _⟩ := List.append_inj' h1 rfl
      have hmem : e ∈ ev0 := by rw [← h4]; simp
      have := h2 e hmem
      rw [hx] at this
      cases this

/-- The events and the error of `Engine.ResolveDependencies`, when the generator returned
work units to create, are those of the loop over the work units. -/
theorem ResolveDependencies_loop {S V T : Type} (w : World S V T) (source : S) (dest : String)
    (hgen : (w.GenerateDependencies source).2.2 = none)
    (hcreate : (w.GenerateDependencies source).2.1 = true) :
    (Engine.ResolveDependencies w source dest).1 =
      (Engine.processAll w dest (w.GenerateDependencies source).1 [] []).1 ∧
    (Engine.ResolveDependencies w source dest).2.2 =
      (Engine.processAll w dest (w.GenerateDependencies source).1 [] []).2.2 ∧
    ((Engine.processAll w dest (w.GenerateDependencies source).1 [] []).2.2 = none →
      (Engine.ResolveDependencies w source dest).2.1 =
        w.ToCtyMap (w.CreateTree
          (Engine.processAll w dest (w.GenerateDependencies source).1 [] []).2.1)) ∧
    ((Engine.processAll w dest (w.GenerateDependencies source).1 [] []).2.2 ≠ none →
      (Engine.ResolveDependencies w source dest).2.1 = none) := by
  unfold Engine.ResolveDependencies
  rw [hgen, hcreate]
  simp only [Bool.not_true, Bool.false_eq_true, if_false]
  split
  · rename_i tr vals err h
    rw [h]
    simp
  · rename_i tr vals h
    rw [h]
    simp

/-- The events of `Engine.ResolveDependencies` have the shape of its error. -/
theorem ResolveDependencies_shape {S V T : Type} (w : World S V T) (source : S) (dest : String)
    (hgen : (w.GenerateDependencies source).2.2 = none) :
    Shape (Engine.ResolveDependencies w source dest).1
      (Engine.ResolveDependencies w source dest).2.2 := by
  by_cases hcreate : (w.GenerateDependencies source).2.1 = true
  · obtain ⟨h1, h2, _, _⟩ := ResolveDependencies_loop w source dest hgen hcreate
    obtain ⟨ev, he1, he2, _⟩ :=
      processAll_events w dest (w.GenerateDependencies source).1 [] []
    rw [h1, h2, he1]
    simpa using he2
  · unfold Engine.ResolveDependencies
    rw [hgen]
    simp only [hcreate]
    exact Shape.nil

theorem foldl_mergeValues_get {V : Type} (outs : List (GoMap V)) (values : GoMap V)
    (k : String) :
    (outs.foldl mergeValues values).get k =
      (GoMap.get outs.flatten.reverse k).orElse (fun _ => values.get k) := by
  induction outs generalizing values with
  | nil => simp [GoMap.get]
  | cons o os ih =>
    rw [List.foldl_cons, ih, mergeValues_get, List.flatten_cons, List.reverse_append,
      GoMap.get_append]
    cases GoMap.get os.flatten.reverse k <;> simp

/-! ## The maps of `Module.resolveDependencies` -/

/-- The shared map after the inner loop: an entry that was there stays, and a hash that was
not there gets the first of the modules with this hash. -/
theorem recordModules_loaded {S B : Type} (md5hex : Bytes → String) (name : String)
    (ms : List (Module S B)) (deps loaded : GoMap (Module S B)) (h : String) :
    (Module.recordModules md5hex name ms deps loaded).2.get h =
      (loaded.get h).orElse (fun _ => ms.find? (fun x => Module.Hash md5hex x = h)) := by
  induction ms generalizing deps loaded with
  | nil => cases hl : loaded.get h <;> simp [Module.recordModules, hl]
  | cons x rest ih =>
    unfold Module.recordModules
    simp only []
    rw [ih]
    by_cases hx : Module.Hash md5hex x = h
    · subst hx
      cases hl : GoMap.get loaded (Module.Hash md5hex x) with
      | none => simp [hl, GoMap.get_set]
      | some c => simp [hl]
    · cases hl : GoMap.get loaded (Module.Hash md5hex x) with
      | none =>
        simp only [hl, Option.isSome_none, Bool.false_eq_true, if_false, GoMap.get_set, hx]
        cases GoMap.get loaded h <;> simp [List.find?, hx]
      | some c =>
        simp only [hl, Option.isSome_some, if_true]
        cases GoMap.get loaded h <;> simp [List.find?, hx]

/-- The inner loop writes no key of `m.deps` but `name`. -/
theorem recordModules_deps_other {S B : Type} (md5hex : Bytes → String) (name : String)
    (ms : List (Module S B)) (deps loaded : GoMap (Module S B)) (n : String) (hn : n ≠ name) :
    (Module.recordModules md5hex name ms deps loaded).1.get n = deps.get n := by
  induction ms generalizing deps loaded with
  | nil => rfl
  | cons x rest ih =>
    unfold Module.recordModules
    simp only []
    rw [ih, GoMap.get_set]
    simp [Ne.symm hn]

/-- After the inner loop over at least one module, `m.deps[name]` is the entry of the shared
map for the hash of the last module. -/
theorem recordModules_deps_last {S B : Type} (md5hex : Bytes → String) (name : String)
    (ms : List (Module S B)) (deps loaded : GoMap (Module S B)) (x : Module S B)
    (hx : ms.getLast? = some x) :
    ∃ c, (Module.recordModules md5hex name ms deps loaded).1.get name = some c ∧
      (Module.recordModules md5hex name ms deps loaded).2.get (Module.Hash md5hex x) = some c := by
  induction ms generalizing deps loaded with
  | nil => simp at hx
  | cons y rest ih =>
    unfold Module.recordModules
    simp only []
    cases rest with
    | nil =>
      simp only [List.getLast?_singleton, Option.some.injEq] at hx
      subst hx
      simp only [Module.recordModules, GoMap.get_set, if_true]
      cases hl : GoMap.get loaded (Module.Hash md5hex y) with
      | none => simp [GoMap.get_set]
      | some c => simp [hl]
    | cons z rest' =>
      exact ih _ _ (by simpa [List.getLast?_cons_cons] using hx)

/-- The keys of `m.deps` after the inner loop: the old keys, and `name` when there was a
module. -/
theorem recordModules_keys {S B : Type} (md5hex : Bytes → String) (name : String)
    (ms : List (Module S B)) (deps loaded : GoMap (Module S B)) (n : String) :
    n ∈ (Module.recordModules md5hex name ms deps loaded).1.keys ↔
      n ∈ deps.keys ∨ (n = name ∧ ms ≠ []) := by
  induction ms generalizing deps loaded with
  | nil => simp [Module.recordModules]
  | cons x rest ih =>
    unfold Module.recordModules
    simp only []
    rw [ih, GoMap.mem_keys_iff, GoMap.get_set, GoMap.mem_keys_iff]
    by_cases hn : name = n
    · subst hn
      simp
    · simp [hn, Ne.symm hn]

/-- One round of the outer loop that loads without an error. -/
theorem resolveLoop_cons_ok {S B : Type} (L : Loader S B) (m : Module S B) (i : Nat)
    (dep : Dependency B) (rest : List (Dependency B)) (deps loaded : GoMap (Module S B))
    (hok : (Module.resolveLoop L m i (dep :: rest) deps loaded).2.2 = none) :
    Module.resolveLoop L m i (dep :: rest) deps loaded =
      Module.resolveLoop L m (i + 1) rest
        (Module.recordModules L.md5hex dep.Name (Module.loadedFor L m i dep) deps loaded).1
        (Module.recordModules L.md5hex dep.Name (Module.loadedFor L m i dep) deps loaded).2 := by
  unfold Module.loadedFor
  rcases hload : L.loadModules i (L.getSource dep.Source (L.pwd m.Source)) Level.Dependency
    with ⟨modules, _ | err⟩
  · simp only [Module.resolveLoop, hload]
  · simp [Module.resolveLoop, hload] at hok

/-- An entry of the shared map stays what it is, whatever the outcome of the loop. -/
theorem resolveLoop_loaded_mono {S B : Type} (L : Loader S B) (m : Module S B) (i : Nat)
    (ds : List (Dependency B)) (deps loaded : GoMap (Module S B)) (h : String)
    (c : Module S B) (hc : loaded.get h = some c) :
    (Module.resolveLoop L m i ds deps loaded).2.1.get h = some c := by
  induction ds generalizing i deps loaded with
  | nil => exact hc
  | cons dep rest ih =>
    unfold Module.resolveLoop
    simp only []
    split
    · exact hc
    · apply ih
      rw [recordModules_loaded, hc]
      rfl

/-- The shared map after a loop without an error: an entry that was there stays, and a hash
that was not there gets the first loaded module with this hash. -/
theorem resolveLoop_loaded {S B : Type} (L : Loader S B) (m : Module S B) (i : Nat)
    (ds : List (Dependency B)) (deps loaded : GoMap (Module S B)) (h : String)
    (hok : (Module.resolveLoop L m i ds deps loaded).2.2 = none) :
    (Module.resolveLoop L m i ds deps loaded).2.1.get h =
      (loaded.get h).orElse
        (fun _ => (Module.allLoaded L m i ds).find? (fun x => Module.Hash L.md5hex x = h)) := by
  induction ds generalizing i deps loaded with
  | nil => cases hl : loaded.get h <;> simp [Module.resolveLoop, Module.allLoaded, hl]
  | cons dep rest ih =>
    have hstep := resolveLoop_cons_ok L m i dep rest deps loaded hok
    rw [hstep] at hok ⊢
    rw [ih _ _ _ hok, recordModules_loaded]
    simp only [Module.allLoaded, List.find?_append]
    cases GoMap.get loaded h with
    | some c => rfl
    | none =>
      cases List.find? (fun x => Module.Hash L.md5hex x = h) (Module.loadedFor L m i dep) <;> rfl

/-- The loop writes no key of `m.deps` but the names of the dependencies. -/
theorem resolveLoop_deps_other {S B : Type} (L : Loader S B) (m : Module S B) (i : Nat)
    (ds : List (Dependency B)) (deps loaded : GoMap (Module S B)) (n : String)
    (hn : ∀ d ∈ ds, d.Name ≠ n) :
    (Module.resolveLoop L m i ds deps loaded).1.get n = deps.get n := by
  induction ds generalizing i deps loaded with
  | nil => rfl
  | cons dep rest ih =>
    unfold Module.resolveLoop
    simp only []
    split
    · rfl
    · rw [ih _ _ _ (fun d hd => hn d (List.mem_cons_of_mem _ hd))]
      exact recordModules_deps_other _ _ _ _ _ _ (Ne.symm (hn dep (List.mem_cons_self _ _)))

/-- The keys of `m.deps` after a loop without an error: the old keys and the names of the
dependencies for which at least one module was loaded. -/
theorem resolveLoop_keys {S B : Type} (L : Loader S B) (m : Module S B) (i : Nat)
    (ds : List (Dependency B)) (deps loaded : GoMap (Module S B)) (n : String)
    (hok : (Module.resolveLoop L m i ds deps loaded).2.2 = none) :
    n ∈ (Module.resolveLoop L m i ds deps loaded).1.keys ↔
      n ∈ deps.keys ∨
        ∃ j d, ds[j]? = some d ∧ d.Name = n ∧ Module.loadedFor L m (i + j) d ≠ [] := by
  induction ds generalizing i deps loaded with
  | nil => simp [Module.resolveLoop]
  | cons dep rest ih =>
    have hstep := resolveLoop_cons_ok L m i dep rest deps loaded hok
    rw [hstep] at hok ⊢
    rw [ih _ _ _ hok, recordModules_keys]
    constructor
    · rintro ((h | ⟨h1, h2⟩) | ⟨j, d, h1, h2, h3⟩)
      · exact Or.inl h
      · exact Or.inr ⟨0, dep, by simp, h1.symm, h2⟩
      · refine Or.inr ⟨j + 1, d, by simpa using h1, h2, ?_⟩
        rwa [show i + (j + 1) = i + 1 + j by omega]
    · rintro (h | ⟨j, d, h1, h2, h3⟩)
      · exact Or.inl (Or.inl h)
      · cases j with
        | zero =>
          simp only [List.getElem?_cons_zero, Option.some.injEq] at h1
          subst h1
          exact Or.inl (Or.inr ⟨h2.symm, h3⟩)
        | succ j =>
          refine Or.inr ⟨j, d, by simpa using h1, h2, ?_⟩
          rwa [show i + (j + 1) = i + 1 + j by omega] at h3

/-- After a loop without an error over dependencies with distinct names, the entry of
`m.deps` for a dependency with at least one loaded module is the entry of the shared map
for the hash of the last module loaded for it. -/
theorem resolveLoop_deps_last {S B : Type} (L : Loader S B) (m : Module S B) (i : Nat)
    (ds : List (Dependency B)) (deps loaded : GoMap (Module S B))
    (hok : (Module.resolveLoop L m i ds deps loaded).2.2 = none)
    (hnd : (ds.map (fun d => d.Name)).Nodup)
    (j : Nat) (d : Dependency B) (x : Module S B) (hd : ds[j]? = some d)
    (hx : (Module.loadedFor L m (i + j) d).getLast? = some x) :
    ∃ c, (Module.resolveLoop L m i ds deps loaded).1.get d.Name = some c ∧
      (Module.resolveLoop L m i ds deps loaded).2.1.get (Module.Hash L.md5hex x) = some c := by
  induction ds generalizing i deps loaded j with
  | nil => simp at hd
  | cons dep rest ih =>
    have hstep := resolveLoop_cons_ok L m i dep rest deps loaded hok
    rw [hstep] at hok ⊢
    rw [List.map_cons, List.nodup_cons] at hnd
    cases j with
    | zero =>
      simp only [List.getElem?_cons_zero, Option.some.injEq] at hd
      subst hd
      obtain ⟨c, hc1, hc2⟩ := recordModules_deps_last L.md5hex dep.Name
        (Module.loadedFor L m i dep) deps loaded x (by simpa using hx)
      refine ⟨c, ?_, resolveLoop_loaded_mono _ _ _ _ _ _ _ _ hc2⟩
      rw [resolveLoop_deps_other, hc1]
      intro d hd hname
      exact hnd.1 (List.mem_map.mpr ⟨d, hd, hname⟩)
    | succ j =>
      exact ih _ _ _ hok hnd.2 j (by simpa using hd)
        (by rwa [show i + (j + 1) = i + 1 + j by omega] at hx)

/-! ## Properties of `Dependency.Merge` and `Dependency.Validate` -/

/-- C1: `Dependency.Merge` is a no-op when the names differ: for every target `d` and every
non-nil override `src` with `d.Name != src.Name` it returns no error and leaves the target
(so its `Name`, `Source` and `Backend`) exactly as it was, whatever `src.Source` and
`src.Backend` contain and whatever the backend merge would do. -/
theorem merge_name_mismatch_noop {B : Type}
    (backendMerge : Option B → Option B → Option B × Option Err)
    (d src : Dependency B) (h : d.Name ≠ src.Name) :
    (Dependency.Merge backendMerge d (some src)).2 = none ∧
    (Dependency.Merge backendMerge d (some src)).1.Name = d.Name ∧
    (Dependency.Merge backendMerge d (some src)).1.Source = d.Source ∧
    (Dependency.Merge backendMerge d (some src)).1.Backend = d.Backend := by
  simp [Dependency.Merge, h]

theorem merge_name_mismatch_noop_witness :
    ("x" : String) ≠ "y" ∧
    (Dependency.Merge (fun _ _ => ((some 7 : Option Nat), some "conflict"))
        ⟨"x", "a", none⟩ (some ⟨"y", "b", some 3⟩)).2 = none ∧
    (Dependency.Merge (fun _ _ => ((some 7 : Option Nat), some "conflict"))
        ⟨"x", "a", none⟩ (some ⟨"y", "b", some 3⟩)).1.Name = "x" ∧
    (Dependency.Merge (fun _ _ => ((some 7 : Option Nat), some "conflict"))
        ⟨"x", "a", none⟩ (some ⟨"y", "b", some 3⟩)).1.Source = "a" ∧
    (Dependency.Merge (fun _ _ => ((some 7 : Option Nat), some "conflict"))
        ⟨"x", "a", none⟩ (some ⟨"y", "b", some 3⟩)).1.Backend = none :=
  ⟨by decide,
   merge_name_mismatch_noop (fun _ _ => ((some 7 : Option Nat), some "conflict"))
     ⟨"x", "a", none⟩ ⟨"y", "b", some 3⟩ (by decide)⟩

/-- C2: for a target `d` and an override `src` with the same `Name`, after a successful
`Dependency.Merge` the target's `Source` is `src.Source` when that is non-empty and the
target's previous `Source` when it is empty, and the target's `Name` is unchanged. -/
theorem merge_same_name_source {B : Type}
    (backendMerge : Option B → Option B → Option B × Option Err)
    (d src : Dependency B) (h : d.Name = src.Name)
    (_hok : (Dependency.Merge backendMerge d (some src)).2 = none) :
    (src.Source ≠ "" → (Dependency.Merge backendMerge d (some src)).1.Source = src.Source) ∧
    (src.Source = "" → (Dependency.Merge backendMerge d (some src)).1.Source = d.Source) ∧
    (Dependency.Merge backendMerge d (some src)).1.Name = d.Name := by
  unfold Dependency.Merge
  by_cases hs : src.Source = "" <;>
  by_cases hb : (d.Backend.isNone && src.Backend.isSome) = true <;>
  rcases hbm : backendMerge d.Backend src.Backend with ⟨b, _ | e⟩ <;>
  simp [h, hs, hb, hbm]

theorem merge_same_name_source_witness :
    ((("b" : String) ≠ "" →
        (Dependency.Merge (fun (b : Option Nat) _ => (b, none))
          ⟨"x", "a", some 1⟩ (some ⟨"x", "b", none⟩)).1.Source = "b") ∧
      (("b" : String) = "" →
        (Dependency.Merge (fun (b : Option Nat) _ => (b, none))
          ⟨"x", "a", some 1⟩ (some ⟨"x", "b", none⟩)).1.Source = "a") ∧
      (Dependency.Merge (fun (b : Option Nat) _ => (b, none))
          ⟨"x", "a", some 1⟩ (some ⟨"x", "b", none⟩)).1.Name = "x") ∧
    (Dependency.Merge (fun (b : Option Nat) _ => (b, none))
        ⟨"x", "a", some 1⟩ (some ⟨"x", "", none⟩)).1.Source = "a" :=
  ⟨merge_same_name_source (fun (b : Option Nat) _ => (b, none))
     ⟨"x", "a", some 1⟩ ⟨"x", "b", none⟩ rfl (by decide), by decide⟩

/-- C3: for a target `d` without a backend and an override `src` with the same `Name` and a
backend, `Dependency.Merge` returns no error and the target's `Backend` afterwards is
exactly the override's `Backend`; no field-level merge is attempted, so the outcome is the
same whatever the backend merge would do. -/
theorem merge_adopts_backend {B : Type}
    (backendMerge : Option B → Option B → Option B × Option Err)
    (d src : Dependency B) (h : d.Name = src.Name)
    (hd : d.Backend = none) (hs : src.Backend.isSome = true) :
    (Dependency.Merge backendMerge d (some src)).2 = none ∧
    (Dependency.Merge backendMerge d (some src)).1.Backend = src.Backend ∧
    ∀ backendMerge' : Option B → Option B → Option B × Option Err,
      Dependency.Merge backendMerge' d (some src) = Dependency.Merge backendMerge d (some src) := by
  unfold Dependency.Merge
  by_cases hsrc : src.Source = "" <;> simp [h, hd, hs, hsrc]

theorem merge_adopts_backend_witness :
    (Dependency.Merge (fun _ _ => ((none : Option Nat), some "conflict"))
        ⟨"x", "a", none⟩ (some ⟨"x", "", some 3⟩)).2 = none ∧
    (Dependency.Merge (fun _ _ => ((none : Option Nat), some "conflict"))
        ⟨"x", "a", none⟩ (some ⟨"x", "", some 3⟩)).1.Backend = some 3 ∧
    ∀ backendMerge' : Option Nat → Option Nat → Option Nat × Option Err,
      Dependency.Merge backendMerge' ⟨"x", "a", none⟩ (some ⟨"x", "", some 3⟩) =
      Dependency.Merge (fun _ _ => ((none : Option Nat), some "conflict"))
        ⟨"x", "a", none⟩ (some ⟨"x", "", some 3⟩) :=
  merge_adopts_backend (fun _ _ => ((none : Option Nat), some "conflict"))
    ⟨"x", "a", none⟩ ⟨"x", "", some 3⟩ rfl rfl rfl

/-- C4, as stated, fails: the dependency with an empty `Name` and the `Source` "a" is
accepted by `Validate` with `(true, nil)`, although its name is empty. -/
theorem validate_accepts_empty_name :
    Dependency.Validate (⟨"", "a", none⟩ : Dependency Unit) = (true, none) ∧
    ¬ ((⟨"", "a", none⟩ : Dependency Unit).Name ≠ "" ∧
       (⟨"", "a", none⟩ : Dependency Unit).Source ≠ "") := by
  decide

/-- C4, amended: `Dependency.Validate` checks the source only. It returns `(true, nil)` if
and only if `Source` is non-empty, and otherwise returns `false` with the error
`dependencySourceMustBeSet`; `Name` is not looked at. -/
theorem validate_checks_source_only {B : Type} (d : Dependency B) :
    (Dependency.Validate d = (true, none) ↔ d.Source ≠ "") ∧
    (d.Source = "" → Dependency.Validate d = (false, some dependencySourceMustBeSet)) ∧
    (∀ name : String, Dependency.Validate { d with Name := name } = Dependency.Validate d) := by
  unfold Dependency.Validate
  by_cases hs : d.Source = "" <;> simp [hs]

/-! ## Properties of `Engine.ResolveDependencies` -/

/-- C5: `Engine.ResolveDependencies` processes the work units strictly one after the other
in the order the generator returned them, each with its lifecycle `init`, `apply`,
`output -json`: when the generator returns work units to create and no call of the run
fails, the call returns no error and the sequence of executor calls is exactly the
lifecycle of the first unit, then that of the second, and so on, with nothing between. -/
theorem resolveDependencies_sequential {S V T : Type} (w : World S V T) (source : S)
    (dest : String)
    (hgen : (w.GenerateDependencies source).2.2 = none)
    (hcreate : (w.GenerateDependencies source).2.1 = true)
    (hall : ∀ e ∈ (Engine.ResolveDependencies w source dest).1, e.err = none) :
    (Engine.ResolveDependencies w source dest).2.2 = none ∧
    executorCalls (Engine.ResolveDependencies w source dest).1 =
      (w.GenerateDependencies source).1.flatMap (fun p =>
        [(w.Join dest p.Name, ["init"]), (w.Join dest p.Name, ["apply"]),
         (w.Join dest p.Name, ["output", "-json"])]) := by
  have hshape := ResolveDependencies_shape w source dest hgen
  obtain ⟨h1, h2, _, _⟩ := ResolveDependencies_loop w source dest hgen hcreate
  obtain ⟨ev, he1, _, he3⟩ := processAll_events w dest (w.GenerateDependencies source).1 [] []
  have hnone : (Engine.ResolveDependencies w source dest).2.2 = none := by
    cases herr : (Engine.ResolveDependencies w source dest).2.2 with
    | none => rfl
    | some x =>
      rw [herr] at hshape
      obtain ⟨ev0, last, hl1, _, hl3⟩ := hshape
      have := hall last (by rw [hl1]; simp)
      rw [hl3] at this
      cases this
  refine ⟨hnone, ?_⟩
  rw [h2] at hnone
  rw [h1, he1, List.nil_append, (he3 hnone).1]
  rfl

theorem resolveDependencies_sequential_witness :
    executorCalls (Engine.ResolveDependencies (exampleWorld unitsABC none (fun _ => [])) () "d").1 =
      [("d/A", ["init"]), ("d/A", ["apply"]), ("d/A", ["output", "-json"]),
       ("d/B", ["init"]), ("d/B", ["apply"]), ("d/B", ["output", "-json"]),
       ("d/C", ["init"]), ("d/C", ["apply"]), ("d/C", ["output", "-json"])] :=
  (resolveDependencies_sequential (exampleWorld unitsABC none (fun _ => [])) () "d" rfl rfl
    (by decide)).2

/-- C6: failure abort in `Engine.ResolveDependencies`: when a call of the run fails (the
write of `main.tf`, or the stage `init`, `apply` or `output` of a work unit, or its hook or
the reading of its output), nothing is executed after it, neither a later stage of this
unit nor any stage of a later unit, and the call returns exactly this error together with
a `nil` map. -/
theorem resolveDependencies_failure_abort {S V T : Type} (w : World S V T) (source : S)
    (dest : String) (pre post : List (Event V)) (e : Event V) (x : Err)
    (htr : (Engine.ResolveDependencies w source dest).1 = pre ++ e :: post)
    (hx : e.err = some x) :
    post = [] ∧ (Engine.ResolveDependencies w source dest).2 = (none, some x) := by
  have hgen : (w.GenerateDependencies source).2.2 = none := by
    cases hg : (w.GenerateDependencies source).2.2 with
    | none => rfl
    | some y =>
      unfold Engine.ResolveDependencies at htr
      rw [hg] at htr
      simp at htr
  have hcreate : (w.GenerateDependencies source).2.1 = true := by
    cases hc : (w.GenerateDependencies source).2.1 with
    | true => rfl
    | false =>
      unfold Engine.ResolveDependencies at htr
      rw [hgen, hc] at htr
      simp at htr
  obtain ⟨hpost, herr⟩ :=
    Shape.failed_is_last (ResolveDependencies_shape w source dest hgen) htr hx
  obtain ⟨_, h2, _, h4⟩ := ResolveDependencies_loop w source dest hgen hcreate
  refine ⟨hpost, ?_⟩
  have hmap := h4 (by rw [← h2, herr]; simp)
  rw [Prod.ext_iff]
  exact ⟨hmap, herr⟩

theorem resolveDependencies_failure_abort_witness :
    (Engine.ResolveDependencies (exampleWorld unitsABC (some ("d/B", ["init"])) (fun _ => []))
        () "d").2 = (none, some "exit status 1") ∧
    executorCalls (Engine.ResolveDependencies
        (exampleWorld unitsABC (some ("d/B", ["init"])) (fun _ => [])) () "d").1 =
      [("d/A", ["init"]), ("d/A", ["apply"]), ("d/A", ["output", "-json"]),
       ("d/B", ["init"])] :=
  ⟨(resolveDependencies_failure_abort
      (exampleWorld unitsABC (some ("d/B", ["init"])) (fun _ => [])) () "d"
      [Event.ensureDirectoryExists "d/A", Event.writeFile "d/A/main.tf" [] none,
       Event.hooksRun "A" "prepare" "init" none,
       Event.execute "d/A" [] ["init"] "d/A" none,
       Event.execute "d/A" [] ["apply"] "d/A" none,
       Event.execute "d/A" [] ["output", "-json"] "d/A" none,
       Event.resolveStateOutput "d/A" [] none,
       Event.ensureDirectoryExists "d/B", Event.writeFile "d/B/main.tf" [] none,
       Event.hooksRun "B" "prepare" "init" none]
      [] (Event.execute "d/B" [] ["init"] "d/B" (some "exit status 1")) "exit status 1"
      (by decide) rfl).2, by decide⟩

/-- C7, as stated, fails: the work units `net` and `db` each yield the output `id` (1 and
2); the flat mapping handed to tree construction is the single entry `id` with the value 2
of `db`. There is no entry `net.id` or `db.id`, and the value of `net` is overwritten. -/
theorem aggregate_keys_collide :
    unitOutputs (Engine.processAll (exampleWorld unitsNetDb none idOutputs) "d"
        unitsNetDb [] []).1 = [[("id", 1)], [("id", 2)]] ∧
    (Engine.processAll (exampleWorld unitsNetDb none idOutputs) "d"
        unitsNetDb [] []).2 = ([("id", 2)], none) ∧
    (Engine.ResolveDependencies (exampleWorld unitsNetDb none idOutputs) () "d").2 =
      (some [("id", 2)], none) ∧
    GoMap.get (Engine.processAll (exampleWorld unitsNetDb none idOutputs) "d"
        unitsNetDb [] []).2.1 "net.id" = none ∧
    GoMap.get (Engine.processAll (exampleWorld unitsNetDb none idOutputs) "d"
        unitsNetDb [] []).2.1 "db.id" = none := by
  decide

/-- C7, amended: the flat mapping handed to tree construction is the union of the maps the
work units were resolved to, under the keys exactly as `Process` returned them (the engine
adds no dependency name); when the call succeeds, each key holds the value that was
assigned to it last, that is the value of the last unit in order that returned this key. -/
theorem aggregate_keys_last_wins {S V T : Type} (w : World S V T) (source : S) (dest : String)
    (hgen : (w.GenerateDependencies source).2.2 = none)
    (hcreate : (w.GenerateDependencies source).2.1 = true)
    (hok : (Engine.ResolveDependencies w source dest).2.2 = none) (k : String) :
    GoMap.get (Engine.processAll w dest (w.GenerateDependencies source).1 [] []).2.1 k =
      lastAssigned (unitOutputs (Engine.ResolveDependencies w source dest).1) k := by
  obtain ⟨h1, h2, _, _⟩ := ResolveDependencies_loop w source dest hgen hcreate
  obtain ⟨ev, he1, _, he3⟩ := processAll_events w dest (w.GenerateDependencies source).1 [] []
  rw [h2] at hok
  rw [h1, he1, List.nil_append, (he3 hok).2, foldl_mergeValues_get]
  unfold lastAssigned
  cases GoMap.get (unitOutputs ev).flatten.reverse k <;> simp [GoMap.get]

theorem aggregate_keys_last_wins_witness :
    GoMap.get (Engine.processAll (exampleWorld unitsNetDb none namedOutputs) "d"
        unitsNetDb [] []).2.1 "net.id" = some 1 ∧
    GoMap.get (Engine.processAll (exampleWorld unitsNetDb none namedOutputs) "d"
        unitsNetDb [] []).2.1 "db.id" = some 2 :=
  ⟨(aggregate_keys_last_wins (exampleWorld unitsNetDb none namedOutputs) () "d" rfl rfl
      (by decide) "net.id").trans (by decide),
   (aggregate_keys_last_wins (exampleWorld unitsNetDb none namedOutputs) () "d" rfl rfl
      (by decide) "db.id").trans (by decide)⟩

/-- C8, as stated, fails: the outputs of the work unit hold the path `a` and the path `a.b`,
of which the first is a strict prefix of the second, and the call returns a value map and
a `nil` error. -/
theorem shape_conflict_not_reported :
    (Engine.processAll (exampleWorld [⟨"x", [], []⟩] none conflictOutputs) "d"
        [⟨"x", [], []⟩] [] []).2.1 = [("a.b", 1), ("a", 2)] ∧
    (Engine.ResolveDependencies (exampleWorld [⟨"x", [], []⟩] none conflictOutputs) () "d").2 =
      (some [("a.b", 1), ("a", 2)], none) := by
  decide

/-- C8, amended: tree construction reports no error through `Engine.ResolveDependencies`.
`ctytree.CreateTree` returns a tree and nothing else, so once every work unit has been
processed without an error the call returns `ToCtyMap` of the tree built from the union of
the outputs together with a `nil` error, whatever keys the union holds, also when one path
is a strict prefix of another. -/
theorem tree_construction_returns_no_error {S V T : Type} (w : World S V T) (source : S)
    (dest : String)
    (hgen : (w.GenerateDependencies source).2.2 = none)
    (hcreate : (w.GenerateDependencies source).2.1 = true)
    (hloop : (Engine.processAll w dest (w.GenerateDependencies source).1 [] []).2.2 = none) :
    (Engine.ResolveDependencies w source dest).2 =
      (w.ToCtyMap (w.CreateTree
        (Engine.processAll w dest (w.GenerateDependencies source).1 [] []).2.1), none) := by
  obtain ⟨_, h2, h3, _⟩ := ResolveDependencies_loop w source dest hgen hcreate
  rw [Prod.ext_iff]
  exact ⟨h3 hloop, h2.trans hloop⟩

theorem tree_construction_returns_no_error_witness :
    (Engine.ResolveDependencies (exampleWorld unitsNetDb none conflictOutputs) () "d").2 =
      (some [("a.b", 1), ("a", 2)], none) :=
  (tree_construction_returns_no_error (exampleWorld unitsNetDb none conflictOutputs) () "d"
    rfl rfl (by decide)).trans (by decide)

/-! ## Properties of `Module.Hash` and `Module.resolveDependencies` -/

/-- C9, as stated, fails. The cache holds `moduleX` for the hash of the content `[1]`.
First, the source of the dependency `a` fans out into `moduleY`, whose content is the content
of `moduleX`, and `moduleZ`: the entry `a` is set to the cached `moduleX` and then
overwritten, so that the call leaves `moduleZ` in it. Second, a module declares the name `a`
twice; the first dependency loads `moduleX` itself and the second `moduleZ`: the call
leaves `moduleZ` in the entry `a`. In both cases a dependency whose loaded module has the
content of a cached module is not recorded as that cached module. -/
theorem fanout_overwrites_cached_entry :
    moduleY.content = moduleX.content ∧
    GoMap.get [("d1", moduleX)] (Module.Hash exampleDigest moduleY) = some moduleX ∧
    Module.resolveDependencies (exampleLoader (fun _ => [moduleY, moduleZ])) dependentOne
      [("d1", moduleX)] = ([("a", moduleZ)], [("d1", moduleX), ("d2", moduleZ)], none) ∧
    Module.resolveDependencies (exampleLoader answersXThenZ) dependentTwice
      [("d1", moduleX)] = ([("a", moduleZ)], [("d1", moduleX), ("d2", moduleZ)], none) ∧
    moduleZ ≠ moduleX := by
  decide

/-- C9, amended: dedup by content. `Module.Hash` depends on the content bytes only, so
modules with identical content have equal hashes wherever they were loaded from. And over
one shared cache, for modules whose declared dependency names are distinct: let a
dependency of `m1` load as its last module `x1`, the call for `m1` succeed, and a call for
`m2` succeed on a cache that kept the entries of the first call. Then there is one cached
module `c`, the one the cache had for this hash before the first call and otherwise the
first module with this hash loaded in it, such that every dependency of `m1` and every
dependency of `m2` whose last loaded module has the content of `x1` is recorded as this
very `c`: the dependents see identical dependency-map entries. -/
theorem dedup_by_content {S B : Type} (L1 L2 : Loader S B) (hmd5 : L2.md5hex = L1.md5hex)
    (m1 m2 : Module S B) (loaded0 loadedMid : GoMap (Module S B))
    (hnd1 : m1.declaredNames.Nodup) (hnd2 : m2.declaredNames.Nodup)
    (hok1 : (Module.resolveDependencies L1 m1 loaded0).2.2 = none)
    (hmid : ∀ h c, (Module.resolveDependencies L1 m1 loaded0).2.1.get h = some c →
      loadedMid.get h = some c)
    (hok2 : (Module.resolveDependencies L2 m2 loadedMid).2.2 = none)
    (j1 : Nat) (d1 : Dependency B) (x1 : Module S B)
    (hd1 : m1.config.Dependencies[j1]? = some d1)
    (hx1 : (Module.loadedFor L1 m1 j1 d1).getLast? = some x1) :
    (∀ a b : Module S B, a.content = b.content →
      Module.Hash L1.md5hex a = Module.Hash L1.md5hex b) ∧
    ∃ c,
      (loaded0.get (Module.Hash L1.md5hex x1)).orElse
        (fun _ => (Module.allLoaded L1 m1 0 m1.config.Dependencies).find?
          (fun x => Module.Hash L1.md5hex x = Module.Hash L1.md5hex x1)) = some c ∧
      (∀ j d x, m1.config.Dependencies[j]? = some d →
        (Module.loadedFor L1 m1 j d).getLast? = some x → x.content = x1.content →
        (Module.resolveDependencies L1 m1 loaded0).1.get d.Name = some c) ∧
      (∀ j d x, m2.config.Dependencies[j]? = some d →
        (Module.loadedFor L2 m2 j d).getLast? = some x → x.content = x1.content →
        (Module.resolveDependencies L2 m2 loadedMid).1.get d.Name = some c) := by
  have hhash : ∀ a b : Module S B, a.content = b.content →
      Module.Hash L1.md5hex a = Module.Hash L1.md5hex b := by
    intro a b hab
    unfold Module.Hash
    rw [hab]
  refine ⟨hhash, ?_⟩
  unfold Module.resolveDependencies at *
  unfold Module.declaredNames at hnd1 hnd2
  obtain ⟨c, _, hc2⟩ := resolveLoop_deps_last L1 m1 0 _ [] loaded0 hok1 hnd1 j1 d1 x1 hd1
    (by simpa using hx1)
  refine ⟨c, ?_, ?_, ?_⟩
  · rw [← resolveLoop_loaded L1 m1 0 _ [] loaded0 _ hok1]
    exact hc2
  · intro j d x hd hx hcont
    obtain ⟨c', hc1', hc2'⟩ := resolveLoop_deps_last L1 m1 0 _ [] loaded0 hok1 hnd1 j d x hd
      (by simpa using hx)
    rw [hhash x x1 hcont, hc2] at hc2'
    rw [hc1', ← Option.some.inj hc2']
  · intro j d x hd hx hcont
    obtain ⟨c', hc1', hc2'⟩ := resolveLoop_deps_last L2 m2 0 _ [] loadedMid hok2 hnd2 j d x hd
      (by simpa using hx)
    rw [hmd5, hhash x x1 hcont,
      resolveLoop_loaded_mono L2 m2 0 _ [] loadedMid _ c (hmid _ _ hc2)] at hc2'
    rw [hc1', ← Option.some.inj hc2']

theorem dedup_by_content_witness :
    (Module.resolveDependencies (exampleLoader (fun _ => [moduleX])) dependentOne []).1.get "a" =
      some moduleX ∧
    (Module.resolveDependencies (exampleLoader (fun _ => [moduleY])) dependentTwo
      (Module.resolveDependencies (exampleLoader (fun _ => [moduleX])) dependentOne []).2.1).1.get
        "b" = some moduleX := by
  obtain ⟨_, c, hc, h1, h2⟩ := dedup_by_content
    (exampleLoader (fun _ => [moduleX])) (exampleLoader (fun _ => [moduleY])) rfl
    dependentOne dependentTwo []
    (Module.resolveDependencies (exampleLoader (fun _ => [moduleX])) dependentOne []).2.1
    (by decide) (by decide) (by decide) (fun _ _ hc => hc) (by decide)
    0 ⟨"a", "x", none⟩ moduleX (by decide) (by decide)
  have hcx : c = moduleX := (Option.some.inj hc).symm
  subst hcx
  exact ⟨h1 0 ⟨"a", "x", none⟩ moduleX (by decide) (by decide) rfl,
    h2 0 ⟨"b", "y", none⟩ moduleY (by decide) (by decide) rfl⟩

/-- C10, as stated, fails: the module declares the dependency `a`, the loader resolves its
source to zero modules, the call succeeds, and the dependency map has no key at all. -/
theorem dependency_without_module_has_no_key :
    Module.resolveDependencies (exampleLoader (fun _ => [])) dependentOne [] = ([], [], none) ∧
    Module.declaredNames dependentOne = ["a"] ∧
    ¬ (∀ n, n ∈ (Module.resolveDependencies (exampleLoader (fun _ => []))
        dependentOne []).1.keys ↔ n ∈ Module.declaredNames dependentOne) := by
  refine ⟨by decide, by decide, ?_⟩
  intro hall
  have h := (hall "a").mpr (by decide)
  revert h
  decide

/-- C10, amended: after a successful call of `Module.resolveDependencies` the keys of the
dependency map are exactly the declared names of those dependencies for which the loader
returned at least one module. So every key is a declared name, a source that resolves to
several modules gives the one key of its dependency, and the keys are exactly the declared
names when every declared source resolves to at least one module. -/
theorem deps_keys_of_loaded {S B : Type} (L : Loader S B) (m : Module S B)
    (loaded : GoMap (Module S B))
    (hok : (Module.resolveDependencies L m loaded).2.2 = none) :
    (∀ n, n ∈ (Module.resolveDependencies L m loaded).1.keys ↔
      ∃ j d, m.config.Dependencies[j]? = some d ∧ d.Name = n ∧ Module.loadedFor L m j d ≠ []) ∧
    (∀ n, n ∈ (Module.resolveDependencies L m loaded).1.keys → n ∈ m.declaredNames) ∧
    ((∀ j d, m.config.Dependencies[j]? = some d → Module.loadedFor L m j d ≠ []) →
      ∀ n, n ∈ (Module.resolveDependencies L m loaded).1.keys ↔ n ∈ m.declaredNames) := by
  have hkeys : ∀ n, n ∈ (Module.resolveDependencies L m loaded).1.keys ↔
      ∃ j d, m.config.Dependencies[j]? = some d ∧ d.Name = n ∧
        Module.loadedFor L m j d ≠ [] := by
    intro n
    unfold Module.resolveDependencies at hok ⊢
    rw [resolveLoop_keys L m 0 _ [] loaded n hok]
    simp [GoMap.keys]
  have hsub : ∀ n, n ∈ (Module.resolveDependencies L m loaded).1.keys → n ∈ m.declaredNames := by
    intro n hn
    obtain ⟨j, d, h1, h2, _⟩ := (hkeys n).mp hn
    exact List.mem_map.mpr ⟨d, List.getElem?_mem h1, h2⟩
  refine ⟨hkeys, hsub, fun hall n => ⟨hsub n, fun hn => ?_⟩⟩
  obtain ⟨d, hd, hname⟩ := List.mem_map.mp hn
  obtain ⟨j, hj⟩ := List.getElem?_of_mem hd
  exact (hkeys n).mpr ⟨j, d, hj, hname, hall j d hj⟩

theorem deps_keys_of_loaded_witness :
    "a" ∈ (Module.resolveDependencies (exampleLoader (fun _ => [moduleX, moduleY]))
      dependentOne []).1.keys ∧
    (Module.resolveDependencies (exampleLoader (fun _ => [moduleX, moduleY]))
      dependentOne []).1.keys = Module.declaredNames dependentOne :=
  ⟨((deps_keys_of_loaded (exampleLoader (fun _ => [moduleX, moduleY])) dependentOne []
      (by decide)).2.2 (by
        intro j d _
        simp [Module.loadedFor, exampleLoader]) "a").mpr (by decide),
   by decide⟩

/-! ## The zero-dependency case of `Engine.ResolveDependencies` -/

/-- After a loop over the work units that ended without an error, the output of every
work unit was resolved: the loop added one resolved map for each unit. -/
theorem processAll_completed {S V T : Type} (w : World S V T) (dest : String)
    (procs : List dependencyProcessor) (tr : List (Event V)) (values : GoMap V)
    (hok : (Engine.processAll w dest procs tr values).2.2 = none) :
    (unitOutputs (Engine.processAll w dest procs tr values).1).length =
      (unitOutputs tr).length + procs.length := by
  induction procs generalizing tr values with
  | nil => simp [Engine.processAll]
  | cons proc rest ih =>
    cases h1 : w.WriteFile (tr ++ [Event.ensureDirectoryExists (w.Join dest proc.Name)])
        (w.Join (w.Join dest proc.Name) "main.tf") proc.Content with
    | some err =>
      simp [Engine.processAll, h1] at hok
    | none =>
      simp only [Engine.processAll, h1] at hok ⊢
      obtain ⟨pev, hp1, _, hp3⟩ := Process_events w proc
        (tr ++ [Event.ensureDirectoryExists (w.Join dest proc.Name)] ++
          [Event.writeFile (w.Join (w.Join dest proc.Name) "main.tf") proc.Content none])
        (w.Join dest proc.Name)
      rcases hproc : dependencyProcessor.Process w proc
        (tr ++ [Event.ensureDirectoryExists (w.Join dest proc.Name)] ++
          [Event.writeFile (w.Join (w.Join dest proc.Name) "main.tf") proc.Content none])
        (w.Join dest proc.Name) with ⟨tr', vals, _ | err⟩
      · rw [hproc] at hp1 hp3 hok
        simp only [] at hok hp1 hp3 ⊢
        rw [ih tr' (mergeValues values vals) hok, hp1]
        simp only [unitOutputs, List.filterMap_append] at hp3 ⊢
        rw [(hp3 trivial).2]
        simp
        omega
      · rw [hproc] at hok
        simp at hok

/-- C13: zero dependencies is an immediate empty success. When the generator reports
without an error that there is nothing to create, `Engine.ResolveDependencies` returns a
`nil` value map and a `nil` error and the run has no event at all: no directory and no file
is created, no work unit and no executor stage is invoked. And this is the only success
without a complete run: when the generator asks to create and the call returns no error,
the executor ran the three stages of every work unit in order and the output of every
work unit was resolved. -/
theorem zero_dependencies_empty_success {S V T : Type} (w : World S V T) (source : S)
    (dest : String) (hgen : (w.GenerateDependencies source).2.2 = none) :
    ((w.GenerateDependencies source).2.1 = false →
      Engine.ResolveDependencies w source dest = ([], none, none)) ∧
    ((w.GenerateDependencies source).2.1 = true →
      (Engine.ResolveDependencies w source dest).2.2 = none →
      executorCalls (Engine.ResolveDependencies w source dest).1 =
        (w.GenerateDependencies source).1.flatMap (fun p =>
          [(w.Join dest p.Name, ["init"]), (w.Join dest p.Name, ["apply"]),
           (w.Join dest p.Name, ["output", "-json"])]) ∧
      (unitOutputs (Engine.ResolveDependencies w source dest).1).length =
        (w.GenerateDependencies source).1.length) := by
  constructor
  · intro hcreate
    unfold Engine.ResolveDependencies
    rw [hgen, hcreate]
    rfl
  · intro hcreate hok
    obtain ⟨h1, h2, _, _⟩ := ResolveDependencies_loop w source dest hgen hcreate
    obtain ⟨ev, he1, _, he3⟩ :=
      processAll_events w dest (w.GenerateDependencies source).1 [] []
    rw [h2] at hok
    refine ⟨?_, ?_⟩
    · rw [h1, he1, List.nil_append, (he3 hok).1]
      rfl
    · rw [h1, processAll_completed w dest _ [] [] hok]
      simp [unitOutputs]

theorem zero_dependencies_empty_success_witness :
    Engine.ResolveDependencies nothingToCreateWorld () "d" = ([], none, none) :=
  (zero_dependencies_empty_success nothingToCreateWorld () "d" rfl).1 rfl

/-! ## The keys and the loops of `flattenValue` -/

/-- The function `flattenValue` in the words of the source: it panics when
`value.AsValueMap()` panics and otherwise runs its loop over the map that call returns,
starting from the empty map. -/
theorem flattenValue_eq (up : Char → Char) (value : Value) (pre : String) :
    flattenValue up value pre =
      match value.AsValueMap with
      | none => none
      | some entries => flattenRange up pre entries [] := by
  cases value with
  | list elems => cases elems <;> simp [flattenValue, flattenRange, Value.AsValueMap]
  | tuple elems => cases elems <;> simp [flattenValue, flattenRange, Value.AsValueMap]
  | _ => simp [flattenValue, Value.AsValueMap]

theorem ToUpper_append (up : Char → Char) (a b : String) :
    ToUpper up (a ++ b) = ToUpper up a ++ ToUpper up b := by
  apply String.ext
  simp [ToUpper]

theorem ToUpper_idem (up : Char → Char) (hup : ∀ c, up (up c) = up c) (a : String) :
    ToUpper up (ToUpper up a) = ToUpper up a := by
  apply String.ext
  simp [ToUpper, hup]

theorem intercalate_go_eq (sep : String) (rest : List String) (acc a : String) :
    String.intercalate.go (acc ++ sep ++ a) sep rest =
      acc ++ sep ++ String.intercalate.go a sep rest := by
  induction rest generalizing acc a with
  | nil => rfl
  | cons b bs ih =>
    simp only [String.intercalate.go]
    rw [ih (acc ++ sep ++ a) b, ih a b]
    simp only [String.append_assoc]

/-- Joining a path: `root_k1_..._kn` is `root`, an underscore and `k1_..._kn`. -/
theorem intercalate_cons_cons (sep a b : String) (rest : List String) :
    sep.intercalate (a :: b :: rest) = a ++ sep ++ sep.intercalate (b :: rest) := by
  simp only [String.intercalate, String.intercalate.go]
  exact intercalate_go_eq sep rest a b

/-- The key the outer loop forms from a key of the recursive call is the key of the
longer path. -/
theorem pathKey_cons (up : Char → Char) (hup : ∀ c, up (up c) = up c) (pre k : String)
    (path : List String) :
    ToUpper up (pre ++ "_" ++ pathKey up k path) = pathKey up pre (k :: path) := by
  unfold pathKey
  rw [intercalate_cons_cons, ToUpper_append, ToUpper_idem up hup, ← ToUpper_append]

/-- The key of a leaf directly below the prefix. -/
theorem pathKey_single (up : Char → Char) (pre k : String) :
    ToUpper up (pre ++ "_" ++ k) = pathKey up pre [k] := by
  unfold pathKey
  rw [intercalate_cons_cons]
  rfl

/-- Assigning to a key the map does not have adds the pair at the end. -/
theorem GoMap.set_of_not_mem {V : Type} (m : GoMap V) (k : String) (v : V)
    (hk : k ∉ m.keys) : m.set k v = m ++ [(k, v)] := by
  induction m with
  | nil => rfl
  | cons p rest ih =>
    obtain ⟨a, b⟩ := p
    have hak : a ≠ k := by
      intro h
      apply hk
      simp [GoMap.keys, h]
    have hrest : k ∉ GoMap.keys rest := by
      intro h
      apply hk
      simp only [GoMap.keys, List.map_cons, List.mem_cons]
      exact Or.inr h
    simp [GoMap.set, hak, ih hrest]

/-- The inner loop adds one pair for each pair of the recursive result when the keys it
forms are distinct and new. -/
theorem flattenInner_distinct (up : Char → Char) (pre : String) (inner values : GoMap String)
    (hnd : (values.keys ++ inner.map (fun kv => ToUpper up (pre ++ "_" ++ kv.1))).Nodup) :
    flattenInner up pre inner values =
      values ++ inner.map (fun kv => (ToUpper up (pre ++ "_" ++ kv.1), kv.2)) := by
  induction inner generalizing values with
  | nil => simp [flattenInner]
  | cons p rest ih =>
    have hstep : flattenInner up pre (p :: rest) values =
        flattenInner up pre rest (values.set (ToUpper up (pre ++ "_" ++ p.1)) p.2) := rfl
    have hnew : ToUpper up (pre ++ "_" ++ p.1) ∉ values.keys := by
      intro hmem
      rw [List.map_cons, List.nodup_append] at hnd
      exact hnd.2.2 hmem (List.mem_cons_self _ _)
    rw [hstep, GoMap.set_of_not_mem _ _ _ hnew, ih]
    · simp
    · simp only [GoMap.keys, List.map_append, List.map_cons, List.map_nil, List.append_assoc,
        List.singleton_append] at hnd ⊢
      exact hnd

mutual
/-- On a tree of nested objects with string leaves and distinct keys the function
`flattenValue` returns one pair for each leaf, in the order of the leaves. -/
theorem flattenValue_leaves (up : Char → Char) (hup : ∀ c, up (up c) = up c) :
    ∀ (v : Value) (pre : String), v.isObjectTree = true →
      (v.leaves.map (fun l => pathKey up pre l.1)).Nodup →
      flattenValue up v pre = some (v.leaves.map (fun l => (pathKey up pre l.1, l.2)))
  | .object attrs, pre, htree, hnd => by
    have h := flattenRange_leaves up hup attrs pre []
      (by simpa [Value.isObjectTree] using htree)
      (by simpa [Value.leaves, GoMap.keys] using hnd)
    simpa [flattenValue, Value.leaves] using h
  | .string _, _, htree, _ => by simp [Value.isObjectTree] at htree
  | .number _, _, htree, _ => by simp [Value.isObjectTree] at htree
  | .bool _, _, htree, _ => by simp [Value.isObjectTree] at htree
  | .list _, _, htree, _ => by simp [Value.isObjectTree] at htree
  | .tuple _, _, htree, _ => by simp [Value.isObjectTree] at htree
  | .map _, _, htree, _ => by simp [Value.isObjectTree] at htree
/-- The loop of `flattenValue` over attributes that are strings or trees, with distinct
and new keys: it adds one pair for each leaf at or below the attributes. -/
theorem flattenRange_leaves (up : Char → Char) (hup : ∀ c, up (up c) = up c) :
    ∀ (attrs : List (String × Value)) (pre : String) (values : GoMap String),
      attrsAreTrees attrs = true →
      (values.keys ++ (leavesOfAttrs attrs).map (fun l => pathKey up pre l.1)).Nodup →
      flattenRange up pre attrs values =
        some (values ++ (leavesOfAttrs attrs).map (fun l => (pathKey up pre l.1, l.2)))
  | [], pre, values, _, _ => by simp [flattenRange, leavesOfAttrs]
  | (k, .string s) :: rest, pre, values, htree, hnd => by
    have hrest : attrsAreTrees rest = true := by
      simpa [attrsAreTrees, Value.isString] using htree
    simp only [leavesOfAttrs, Value.AsString, List.singleton_append, List.map_cons] at hnd ⊢
    have hnew : ToUpper up (pre ++ "_" ++ k) ∉ values.keys := by
      intro hmem
      rw [List.nodup_append] at hnd
      exact hnd.2.2 hmem (by rw [pathKey_single]; exact List.mem_cons_self _ _)
    simp only [flattenRange, Value.CanIterateElements, Bool.false_eq_true, if_false,
      Value.AsString]
    rw [GoMap.set_of_not_mem _ _ _ hnew, flattenRange_leaves up hup rest pre _ hrest]
    · simp [pathKey_single]
    · simp only [GoMap.keys, List.map_append, List.map_cons, List.map_nil, List.append_assoc,
        List.singleton_append, pathKey_single] at hnd ⊢
      exact hnd
  | (k, .object attrs) :: rest, pre, values, htree, hnd => by
    have hv : (Value.object attrs).isObjectTree = true := by
      have h := htree
      simp only [attrsAreTrees, Value.isString, Bool.false_or, Bool.and_eq_true] at h
      exact h.1
    have hrest : attrsAreTrees rest = true := by
      have h := htree
      simp only [attrsAreTrees, Value.isString, Bool.false_or, Bool.and_eq_true] at h
      exact h.2
    have hkeys : ∀ l : List String × String,
        ToUpper up (pre ++ "_" ++ pathKey up k l.1) = pathKey up pre (k :: l.1) :=
      fun l => pathKey_cons up hup pre k l.1
    have hleaves : leavesOfAttrs ((k, Value.object attrs) :: rest) =
        (Value.object attrs).leaves.map (fun l => (k :: l.1, l.2)) ++ leavesOfAttrs rest := by
      simp [leavesOfAttrs, Value.AsString]
    rw [hleaves] at hnd ⊢
    simp only [List.map_append, List.map_map, Function.comp_def] at hnd ⊢
    have hndA : (values.keys ++ (Value.object attrs).leaves.map
        (fun l => pathKey up pre (k :: l.1))).Nodup := by
      rw [← List.append_assoc] at hnd
      exact hnd.of_append_left
    have hinnerNd : ((Value.object attrs).leaves.map (fun l => pathKey up k l.1)).Nodup := by
      have h := hndA.of_append_right
      have hmap : (Value.object attrs).leaves.map (fun l => pathKey up pre (k :: l.1)) =
          ((Value.object attrs).leaves.map (fun l => pathKey up k l.1)).map
            (fun fk => ToUpper up (pre ++ "_" ++ fk)) := by
        simp only [List.map_map, Function.comp_def, hkeys]
      rw [hmap] at h
      exact h.of_map _
    have hinner := flattenValue_leaves up hup (Value.object attrs) k hv hinnerNd
    have hflat : flattenInner up pre
        ((Value.object attrs).leaves.map (fun l => (pathKey up k l.1, l.2))) values =
        values ++ (Value.object attrs).leaves.map
          (fun l => (pathKey up pre (k :: l.1), l.2)) := by
      rw [flattenInner_distinct]
      · simp only [List.map_map, Function.comp_def, hkeys]
      · simpa only [List.map_map, Function.comp_def, hkeys] using hndA
    simp only [flattenRange, Value.CanIterateElements, if_true, hinner, hflat]
    rw [flattenRange_leaves up hup rest pre _ hrest]
    · simp
    · simpa [GoMap.keys, Function.comp_def] using hnd
  | (_, .number _) :: _, _, _, htree, _ => by
    simp [attrsAreTrees, Value.isString, Value.isObjectTree] at htree
  | (_, .bool _) :: _, _, _, htree, _ => by
    simp [attrsAreTrees, Value.isString, Value.isObjectTree] at htree
  | (_, .list _) :: _, _, _, htree, _ => by
    simp [attrsAreTrees, Value.isString, Value.isObjectTree] at htree
  | (_, .tuple _) :: _, _, _, htree, _ => by
    simp [attrsAreTrees, Value.isString, Value.isObjectTree] at htree
  | (_, .map _) :: _, _, _, htree, _ => by
    simp [attrsAreTrees, Value.isString, Value.isObjectTree] at htree
end

/-- The mapping `Char.toUpper` of the ASCII letters maps its results to themselves. -/
theorem toUpper_toUpper (c : Char) : c.toUpper.toUpper = c.toUpper := by
  unfold Char.toUpper
  simp only []
  by_cases h : c.toNat ≥ 97 ∧ c.toNat ≤ 122
  · rw [if_pos h]
    obtain ⟨h1, h2⟩ := h
    generalize c.toNat = n at *
    interval_cases n <;> decide
  · rw [if_neg h, if_neg h]

/-! ## Properties of `flattenValue` -/

/-- C11: at the tree `db: (host: "x", port: 5432)` with the root `TAU` the function
`flattenValue` does not return the two pairs: it panics at the number leaf `port`, because
it renders a leaf with `AsString`, which panics on every value that is not a string. So do
`printEnv`, every number leaf, every bool leaf and every non-empty list. With the string
"5432" for the port the two pairs `TAU_DB_HOST`, `TAU_DB_PORT` are returned. -/
theorem flatten_panics_on_number_leaf (up : Char → Char) :
    flattenValue up numberPortTree "TAU" = none ∧
    printEnv up [("db", .object [("host", .string "x"), ("port", .number 5432)])] = none ∧
    (∀ (pre k : String) (n : Int), flattenValue up (.object [(k, .number n)]) pre = none) ∧
    (∀ (pre k : String) (b : Bool), flattenValue up (.object [(k, .bool b)]) pre = none) ∧
    (∀ (pre k : String) (e : Value) (es : List Value),
      flattenValue up (.object [(k, .list (e :: es))]) pre = none) ∧
    flattenValue Char.toUpper stringPortTree "TAU" =
      some [("TAU_DB_HOST", "x"), ("TAU_DB_PORT", "5432")] := by
  refine ⟨rfl, rfl, fun _ _ _ => rfl, fun _ _ _ => rfl, fun _ _ _ _ => ?_, by decide⟩
  simp [flattenValue, flattenRange, Value.CanIterateElements]

/-- C12: flatten key formation. For every tree of nested objects of arbitrary depth whose
leaves are strings and whose keys stay distinct after joining and upper-casing,
`flattenValue(tree, root)` returns exactly one pair for each leaf and nothing else: the
pair of the leaf at the path `k1, ..., kn` has the key
`upper(root + "_" + k1 + "_" + ... + "_" + kn)` and the string of the leaf as its value.
An empty nested object has no leaf and so contributes no pair. -/
theorem flatten_key_formation (up : Char → Char) (hup : ∀ c, up (up c) = up c)
    (tree : Value) (root : String) (htree : tree.isObjectTree = true)
    (hdistinct :
      (tree.leaves.map (fun l => ToUpper up ("_".intercalate (root :: l.1)))).Nodup) :
    flattenValue up tree root =
      some (tree.leaves.map (fun l => (ToUpper up ("_".intercalate (root :: l.1)), l.2))) ∧
    ∀ (k : String) (rest : List (String × Value)),
      (Value.object ((k, Value.object []) :: rest)).leaves = (Value.object rest).leaves := by
  refine ⟨flattenValue_leaves up hup tree root htree hdistinct, fun k rest => ?_⟩
  simp [Value.leaves, leavesOfAttrs, Value.AsString]

theorem flatten_key_formation_witness :
    flattenValue Char.toUpper deepTree "TAU" = some [("TAU_A_B_C", "v"), ("TAU_F", "w")] :=
  (flatten_key_formation Char.toUpper toUpper_toUpper deepTree "TAU" (by decide)
    (by decide)).1.trans (by decide)

end Tau
